import Mathlib

/-!
Verification of the hybrid name-matching core (`src/app.py`).

The Python program ranks candidate names against a query by combining a
rapidfuzz `WRatio` base similarity score with a Soundex phonetic bonus.
This file shallowly embeds the core pipeline of `get_hybrid_matches`:

* the external collaborators (the bulk scorer `process.extract`, the
  phonetic encoder `jellyfish.soundex`, and the precomputed
  `name_soundex_map`) are black boxes per the design document, so they
  are parameters of the embedded functions;
* floating-point scores are modelled by exact rationals;
* the pandas dataframe is modelled by a list of rows in dataframe order;
* `df[cond]` is `List.filter`, `drop_duplicates` keeps the first row per
  name, `head(n)` is `List.take`;
* `df.sort_values(by, ascending=False)` with the default
  `kind=quicksort` is embedded as the reverse of a stable ascending
  insertion sort.  This mirrors the pandas function `nargsort`, which computes an
  ascending argsort and reverses it for descending order; the numpy
  quicksort gives no stability guarantee, and on small arrays it is an
  insertion sort (stable), so the descending sort places equal keys in
  reversed original order.
-/

/-- A row of the dataframe built from the output of `process.extract`: the
columns `Matched Name`, `WRatio Score` and `Index` of `src/app.py`. -/
structure Row where
  matchedName : String
  wratioScore : ℚ
  originalIndex : ℕ
deriving DecidableEq, Repr

/-- A row after the `Hybrid Score` column is added; field order follows
the output column order: matched name, hybrid score, WRatio score. -/
structure SRow where
  matchedName : String
  hybridScore : ℚ
  wratioScore : ℚ
deriving DecidableEq, Repr

/-- The Python method `str.lower()` as used in the self-exclusion filter:
lower-case every character of the string. -/
def lowerStr (s : String) : String := String.mk (s.data.map Char.toLower)

/-- The inner function `calculate_bonus_score` of `src/app.py`
(lines 64-74): a phonetic match (the map lookup returns exactly the
Soundex code of the query) is worth 100, weighted by 0.10, added to the
WRatio score and capped at 100. A lookup miss (`.get` returns `None`)
compares unequal to the query code and contributes 0. -/
def calculate_bonus_score (name_soundex_map : String → Option String)
    (query_soundex : String) (row : Row) : ℚ :=
  let soundex_match : ℚ :=
    if name_soundex_map row.matchedName = some query_soundex then 100 else 0
  let phonetic_bonus : ℚ := soundex_match * (1 / 10)
  let hybrid_score : ℚ := row.wratioScore + phonetic_bonus
  min 100 hybrid_score

/-- Helper for `drop_duplicates`: keep a row only if its name was not
seen before, accumulating the seen names. -/
def dedupAux (seen : List String) : List Row → List Row
  | [] => []
  | r :: rs =>
    if r.matchedName ∈ seen then dedupAux seen rs
    else r :: dedupAux (r.matchedName :: seen) rs

/-- The pandas deduplication `df.drop_duplicates` on the name column (line 58):
keep the first row for each exact name string, preserving order. -/
def drop_duplicates (l : List Row) : List Row := dedupAux [] l

/-- The filter comparing the lower-cased name column with the lower-cased query
(line 57): remove candidates case-insensitively equal to the query. -/
def exclude_query (query : String) (l : List Row) : List Row :=
  l.filter (fun r => lowerStr r.matchedName != lowerStr query)

/-- The assignment of the hybrid-score column via `df.apply(calculate_bonus_score)`
(line 76), producing the output row shape. -/
def apply_bonus (name_soundex_map : String → Option String)
    (query_soundex : String) (r : Row) : SRow :=
  { matchedName := r.matchedName
    hybridScore := calculate_bonus_score name_soundex_map query_soundex r
    wratioScore := r.wratioScore }

/-- Ascending comparison on the `Hybrid Score` column. -/
def hybridRel (a b : SRow) : Prop := a.hybridScore ≤ b.hybridScore

instance : DecidableRel hybridRel := fun a b =>
  inferInstanceAs (Decidable (a.hybridScore ≤ b.hybridScore))

instance : IsTotal SRow hybridRel := ⟨fun a b => le_total a.hybridScore b.hybridScore⟩

instance : IsTrans SRow hybridRel := ⟨fun _ _ _ h h' => le_trans h h'⟩

/-- The pandas descending sort `df.sort_values` on the hybrid-score column
(line 79).  Pandas implements a descending sort as the reverse of an
ascending argsort (`nargsort`), so it is embedded as the reverse of a
stable ascending insertion sort on the hybrid score. -/
def sort_values_desc (l : List SRow) : List SRow :=
  (l.insertionSort hybridRel).reverse

/-- The candidates surviving exclusion (line 57) and deduplication
(line 58), in dataframe order, given the scorer output `matchesL`. -/
def surviving_rows (query : String) (matchesL : List Row) : List Row :=
  drop_duplicates (exclude_query query matchesL)

/-- The surviving candidates with their hybrid scores (line 76). -/
def scored_rows (name_soundex_map : String → Option String)
    (query_soundex : String) (query : String) (matchesL : List Row) : List SRow :=
  (surviving_rows query matchesL).map (apply_bonus name_soundex_map query_soundex)

/-- The final ranked dataframe: sorted descending by hybrid score and
truncated to `top_n` rows (line 79). -/
def ranked_rows (name_soundex_map : String → Option String)
    (query_soundex : String) (query : String) (matchesL : List Row)
    (top_n : ℕ) : List SRow :=
  (sort_values_desc (scored_rows name_soundex_map query_soundex query matchesL)).take top_n

/-- The function `get_hybrid_matches(query, name_list, top_n)` of
`src/app.py` (lines 38-87), parameterised by its black-box
collaborators: `extract` (the bulk WRatio scorer `process.extract` with
`limit=len(name_list)`), `soundex` (the phonetic encoder), and
`name_soundex_map` (the precomputed index, read through `.get`).
Returns the best match (or `none` when the final dataframe is empty)
and the ranked rows. -/
def get_hybrid_matches (extract : String → List String → List Row)
    (soundex : String → String) (name_soundex_map : String → Option String)
    (query : String) (name_list : List String) (top_n : ℕ) :
    Option (String × ℚ) × List SRow :=
  let matchesL := extract query name_list
  let query_soundex := soundex query
  let df := ranked_rows name_soundex_map query_soundex query matchesL top_n
  match df with
  | [] => (none, [])
  | top :: _ => (some (top.matchedName, top.hybridScore), df)

/-- The dictionary comprehension
`name_soundex_map = \x7bname: jellyfish.soundex(name) for name in names\x7d`
(line 35), modelled as an association list in insertion order. -/
def build_name_soundex_map (soundex : String → String)
    (names : List String) : List (String × String) :=
  names.map (fun n => (n, soundex n))

/-- Python `dict.get`: the value of the first (and, for this map, only)
binding of the key, or `none`. -/
def dictGet (d : List (String × String)) (k : String) : Option String :=
  (d.find? (fun p => p.1 == k)).map Prod.snd

/-- The shared, process-wide state of `src/app.py`: the reference list
`names` (lines 8-32) and the precomputed `name_soundex_map` (line 35). -/
structure Env where
  names : List String
  name_soundex_map : List (String × String)
deriving DecidableEq

/-- One query run against the shared state, in state-passing form: the
translation of the body of `get_hybrid_matches` contains no assignment
to `names` or `name_soundex_map` (they are only read, via iteration and
`.get`), so the state is returned unchanged. -/
def run_query (extract : String → List String → List Row)
    (soundex : String → String) (env : Env) (query : String) (top_n : ℕ) :
    (Option (String × ℚ) × List SRow) × Env :=
  (get_hybrid_matches extract soundex (dictGet env.name_soundex_map)
    query env.names top_n, env)

/-! Helper lemmas about the pipeline stages. -/

theorem snd_get_hybrid_matches (extract : String → List String → List Row)
    (soundex : String → String) (m : String → Option String)
    (query : String) (name_list : List String) (top_n : ℕ) :
    (get_hybrid_matches extract soundex m query name_list top_n).2 =
      ranked_rows m (soundex query) query (extract query name_list) top_n := by
  cases h : ranked_rows m (soundex query) query (extract query name_list) top_n with
  | nil => simp [get_hybrid_matches, h]
  | cons a t => simp [get_hybrid_matches, h]

theorem mem_sort_values_desc {s : SRow} {l : List SRow} :
    s ∈ sort_values_desc l ↔ s ∈ l := by
  simp [sort_values_desc, List.mem_insertionSort]

theorem mem_scored_of_mem_ranked {m : String → Option String} {qs query : String}
    {ml : List Row} {top_n : ℕ} {s : SRow} (h : s ∈ ranked_rows m qs query ml top_n) :
    s ∈ scored_rows m qs query ml :=
  mem_sort_values_desc.mp (List.take_subset _ _ h)

theorem mem_of_mem_dedupAux : ∀ (l : List Row) (seen : List String) (r : Row),
    r ∈ dedupAux seen l → r ∈ l := by
  intro l
  induction l with
  | nil => intro seen r h; simp [dedupAux] at h
  | cons x xs ih =>
    intro seen r h
    by_cases hx : x.matchedName ∈ seen
    · simp only [dedupAux, if_pos hx] at h
      exact List.mem_cons_of_mem _ (ih seen r h)
    · simp only [dedupAux, if_neg hx, List.mem_cons] at h
      rcases h with h | h
      · exact h ▸ List.mem_cons_self _ _
      · exact List.mem_cons_of_mem _ (ih _ r h)

theorem dedupAux_find? : ∀ (l : List Row) (seen : List String) (r : Row),
    r ∈ dedupAux seen l →
    r.matchedName ∉ seen ∧
      l.find? (fun x => x.matchedName == r.matchedName) = some r := by
  intro l
  induction l with
  | nil => intro seen r h; simp [dedupAux] at h
  | cons x xs ih =>
    intro seen r h
    by_cases hx : x.matchedName ∈ seen
    · rw [show dedupAux seen (x :: xs) = dedupAux seen xs from by
        simp [dedupAux, hx]] at h
      obtain ⟨hns, hfind⟩ := ih seen r h
      have hne : x.matchedName ≠ r.matchedName := fun he => hns (he ▸ hx)
      exact ⟨hns, by rw [List.find?_cons_of_neg _ (by simpa using hne), hfind]⟩
    · rw [show dedupAux seen (x :: xs) = x :: dedupAux (x.matchedName :: seen) xs from by
        simp [dedupAux, hx]] at h
      rcases List.mem_cons.mp h with rfl | h
      · exact ⟨hx, by rw [List.find?_cons_of_pos _ (by simp)]⟩
      · obtain ⟨hns, hfind⟩ := ih _ r h
        have hns2 : r.matchedName ∉ seen := fun hc => hns (List.mem_cons_of_mem _ hc)
        have hne : r.matchedName ≠ x.matchedName :=
          fun he => hns (he ▸ List.mem_cons_self _ _)
        refine ⟨hns2, ?_⟩
        rw [List.find?_cons_of_neg _ (by simpa using hne.symm), hfind]

theorem dedupAux_names_nodup : ∀ (l : List Row) (seen : List String),
    ((dedupAux seen l).map Row.matchedName).Nodup := by
  intro l
  induction l with
  | nil => intro seen; simp [dedupAux]
  | cons x xs ih =>
    intro seen
    by_cases hx : x.matchedName ∈ seen
    · simpa only [dedupAux, if_pos hx] using ih seen
    · rw [show dedupAux seen (x :: xs) = x :: dedupAux (x.matchedName :: seen) xs from by
        simp [dedupAux, hx]]
      simp only [List.map_cons, List.nodup_cons]
      refine ⟨?_, ih _⟩
      intro hc
      obtain ⟨r, hr, he⟩ := List.mem_map.mp hc
      exact (dedupAux_find? xs _ r hr).1 (he ▸ List.mem_cons_self _ _)

theorem mem_exclude_of_mem_surviving {query : String} {ml : List Row} {r : Row}
    (h : r ∈ surviving_rows query ml) : r ∈ exclude_query query ml :=
  mem_of_mem_dedupAux _ _ _ h

theorem mem_output (extract : String → List String → List Row)
    (soundex : String → String) (m : String → Option String)
    (query : String) (name_list : List String) (top_n : ℕ) (s : SRow)
    (hs : s ∈ (get_hybrid_matches extract soundex m query name_list top_n).2) :
    ∃ r ∈ surviving_rows query (extract query name_list),
      s = apply_bonus m (soundex query) r := by
  rw [snd_get_hybrid_matches] at hs
  obtain ⟨r, hr, he⟩ := List.mem_map.mp (mem_scored_of_mem_ranked hs)
  exact ⟨r, hr, he.symm⟩

/-! Concrete test fixtures used by witness theorems. -/

/-- A concrete bulk scorer output: two candidates with fixed scores. -/
def extractA : String → List String → List Row :=
  fun _ _ => [⟨"Geetha", 90, 0⟩, ⟨"Smith", 40, 1⟩]

/-- A concrete phonetic encoder giving every string the code `G300`. -/
def soundexA : String → String := fun _ => "G300"

/-- A concrete phonetic index containing only `Geetha`. -/
def msmA : String → Option String :=
  fun n => if n == "Geetha" then some "G300" else none

/-- C1: for every query, candidate and phonetic index, the hybrid score
of a returned candidate equals `min(100, baseScore + 10 * phoneticMatch)`
where `phoneticMatch` is 1 exactly when the index lookup of the
name of the candidate yields the phonetic code of the query, and 0 otherwise,
including on a lookup miss. -/
theorem hybrid_score_formula (extract : String → List String → List Row)
    (soundex : String → String) (m : String → Option String)
    (query : String) (name_list : List String) (top_n : ℕ) (s : SRow)
    (hs : s ∈ (get_hybrid_matches extract soundex m query name_list top_n).2) :
    s.hybridScore =
      min 100 (s.wratioScore +
        10 * (if m s.matchedName = some (soundex query) then (1 : ℚ) else 0)) := by
  obtain ⟨r, hr, rfl⟩ := mem_output extract soundex m query name_list top_n s hs
  simp only [apply_bonus, calculate_bonus_score]
  by_cases hm : m r.matchedName = some (soundex query)
  · simp only [hm, if_pos, if_true]; norm_num
  · simp only [hm, if_neg, if_false]; norm_num

/-- C1 witness: the formula instantiated on a concrete run. -/
theorem hybrid_score_formula_check :
    (⟨"Geetha", 100, 90⟩ : SRow).hybridScore =
      min 100 ((⟨"Geetha", 100, 90⟩ : SRow).wratioScore +
        10 * (if msmA (⟨"Geetha", 100, 90⟩ : SRow).matchedName = some (soundexA "Githa")
          then (1 : ℚ) else 0)) :=
  hybrid_score_formula extractA soundexA msmA "Githa" ["Geetha", "Smith"] 10
    ⟨"Geetha", 100, 90⟩ (by with_unfolding_all decide)

/-- C3: assuming the base scorer returns scores in the interval from 0
to 100, every returned candidate has a hybrid score in that interval and
at least its base score. -/
theorem hybrid_score_bounds (extract : String → List String → List Row)
    (soundex : String → String) (m : String → Option String)
    (query : String) (name_list : List String) (top_n : ℕ)
    (hbase : ∀ r ∈ extract query name_list, 0 ≤ r.wratioScore ∧ r.wratioScore ≤ 100)
    (s : SRow)
    (hs : s ∈ (get_hybrid_matches extract soundex m query name_list top_n).2) :
    0 ≤ s.hybridScore ∧ s.hybridScore ≤ 100 ∧ s.wratioScore ≤ s.hybridScore := by
  obtain ⟨r, hr, rfl⟩ := mem_output extract soundex m query name_list top_n s hs
  have hrm : r ∈ extract query name_list :=
    List.mem_of_mem_filter (mem_exclude_of_mem_surviving hr)
  obtain ⟨h0, h100⟩ := hbase r hrm
  simp only [apply_bonus, calculate_bonus_score]
  set b : ℚ := (if m r.matchedName = some (soundex query) then (100 : ℚ) else 0) * (1 / 10)
    with hb
  have hb0 : 0 ≤ b := by rw [hb]; split <;> norm_num
  refine ⟨le_min (by norm_num) (add_nonneg h0 hb0), min_le_left _ _,
    le_min h100 (le_add_of_nonneg_right hb0)⟩

/-- C3 witness: the bounds instantiated on a concrete run. -/
theorem hybrid_score_bounds_check :
    0 ≤ (⟨"Geetha", 100, 90⟩ : SRow).hybridScore ∧
      (⟨"Geetha", 100, 90⟩ : SRow).hybridScore ≤ 100 ∧
      (⟨"Geetha", 100, 90⟩ : SRow).wratioScore ≤ (⟨"Geetha", 100, 90⟩ : SRow).hybridScore :=
  hybrid_score_bounds extractA soundexA msmA "Githa" ["Geetha", "Smith"] 10
    (by with_unfolding_all decide) ⟨"Geetha", 100, 90⟩ (by with_unfolding_all decide)

/-- C4: no returned candidate is case-insensitively equal to the query,
so a reference entry equal to the query never appears in the ranking. -/
theorem self_excluded (extract : String → List String → List Row)
    (soundex : String → String) (m : String → Option String)
    (query : String) (name_list : List String) (top_n : ℕ) (s : SRow)
    (hs : s ∈ (get_hybrid_matches extract soundex m query name_list top_n).2) :
    lowerStr s.matchedName ≠ lowerStr query := by
  obtain ⟨r, hr, rfl⟩ := mem_output extract soundex m query name_list top_n s hs
  have hfil := (List.mem_filter.mp (mem_exclude_of_mem_surviving hr)).2
  simpa [apply_bonus] using hfil

/-- C4 witness: self-exclusion instantiated on a concrete run. -/
theorem self_excluded_check :
    lowerStr (⟨"Geetha", 100, 90⟩ : SRow).matchedName ≠ lowerStr "Githa" :=
  self_excluded extractA soundexA msmA "Githa" ["Geetha", "Smith"] 10
    ⟨"Geetha", 100, 90⟩ (by with_unfolding_all decide)

/-! Helper lemmas about the descending sort. -/

theorem sort_values_desc_perm (l : List SRow) : List.Perm (sort_values_desc l) l :=
  (List.reverse_perm _).trans (List.perm_insertionSort hybridRel l)

theorem sort_values_desc_pairwise (l : List SRow) :
    (sort_values_desc l).Pairwise (fun a b => b.hybridScore ≤ a.hybridScore) := by
  have h := List.sorted_insertionSort hybridRel l
  exact List.pairwise_reverse.mpr h

theorem ranked_rows_pairwise (m : String → Option String) (qs query : String)
    (ml : List Row) (top_n : ℕ) :
    (ranked_rows m qs query ml top_n).Pairwise
      (fun a b => b.hybridScore ≤ a.hybridScore) :=
  (sort_values_desc_pairwise (scored_rows m qs query ml)).sublist
    (List.take_sublist top_n _)

/-- Stability of the embedded descending sort: within each hybrid-score
class, rows appear in reverse of their input order. -/
theorem filter_sort_values_desc (l : List SRow) (k : ℚ) :
    (sort_values_desc l).filter (fun s => decide (s.hybridScore = k)) =
      (l.filter (fun s => decide (s.hybridScore = k))).reverse := by
  set p : SRow → Bool := fun s => decide (s.hybridScore = k) with hp
  have hall : ∀ x ∈ l.filter p, p x = true := fun x hx => List.of_mem_filter hx
  have hpair : (l.filter p).Pairwise hybridRel := by
    refine List.pairwise_of_forall_mem_list ?_
    intro a ha b hb
    have h1 : a.hybridScore = k := by simpa [hp] using List.of_mem_filter ha
    have h2 : b.hybridScore = k := by simpa [hp] using List.of_mem_filter hb
    exact le_of_eq (h1.trans h2.symm)
  have hsub : List.Sublist (l.filter p) (l.insertionSort hybridRel) :=
    List.sublist_insertionSort hpair (List.filter_sublist l)
  have hsub2 : List.Sublist (l.filter p) ((l.insertionSort hybridRel).filter p) := by
    have h3 : (l.filter p).filter p = l.filter p := List.filter_eq_self.mpr hall
    simpa [h3] using hsub.filter p
  have hperm : List.Perm ((l.insertionSort hybridRel).filter p) (l.filter p) :=
    (List.perm_insertionSort hybridRel l).filter p
  have heq : l.filter p = (l.insertionSort hybridRel).filter p :=
    hsub2.eq_of_length hperm.symm.length_eq
  unfold sort_values_desc
  rw [List.filter_reverse, ← heq]

/-- Searching a filtered list finds the same first hit as searching the
original, when every hit of the search predicate passes the filter. -/
theorem find?_filter_eq {α : Type} (l : List α) (p q : α → Bool)
    (himp : ∀ x, q x = true → p x = true) :
    (l.filter p).find? q = l.find? q := by
  induction l with
  | nil => rfl
  | cons x xs ih =>
    by_cases hp : p x
    · rw [List.filter_cons_of_pos hp]
      by_cases hq : q x
      · rw [List.find?_cons_of_pos _ hq, List.find?_cons_of_pos _ hq]
      · rw [List.find?_cons_of_neg _ hq, List.find?_cons_of_neg _ hq, ih]
    · rw [List.filter_cons_of_neg hp, ih, List.find?_cons_of_neg]
      intro hq
      exact hp (himp x hq)

/-- Names are preserved from surviving rows to scored rows. -/
theorem scored_rows_names (m : String → Option String) (qs query : String)
    (ml : List Row) :
    (scored_rows m qs query ml).map SRow.matchedName =
      (surviving_rows query ml).map Row.matchedName := by
  rw [scored_rows, List.map_map]
  rfl

/-- Another concrete bulk scorer output: two tied candidates. -/
def extractB : String → List String → List Row :=
  fun _ _ => [⟨"Alice", 50, 0⟩, ⟨"Bob", 50, 1⟩]

/-- A concrete phonetic index with no entries at all. -/
def msmB : String → Option String := fun _ => none

/-- C2 counterexample: with two surviving candidates `Alice` and `Bob`
tied at hybrid score 50 and appearing in that original order after
scoring, exclusion and deduplication, the ranked sequence is
`[Bob, Alice]` -- the tie comes out in reversed original order, so the
sort is not stable with respect to the original order. -/
theorem ranking_not_stable_at_ties :
    (scored_rows msmB (soundexA "Query") "Query"
        (extractB "Query" ["Alice", "Bob"])).map SRow.matchedName = ["Alice", "Bob"] ∧
      (scored_rows msmB (soundexA "Query") "Query"
        (extractB "Query" ["Alice", "Bob"])).map SRow.hybridScore = [50, 50] ∧
      ((get_hybrid_matches extractB soundexA msmB "Query"
        ["Alice", "Bob"] 10).2).map SRow.matchedName = ["Bob", "Alice"] := by
  with_unfolding_all decide

/-- C2 amended: the ranked sequence is sorted by hybrid score in
descending order, and it is the `topN`-prefix of the descending sort of
the scored survivors, in which candidates with equal hybrid scores
appear in reverse of their original base-similarity order (the
embedding of the pandas descending `sort_values`, which reverses a stable
ascending sort). -/
theorem ranking_sorted_desc_ties_reversed (extract : String → List String → List Row)
    (soundex : String → String) (m : String → Option String)
    (query : String) (name_list : List String) (top_n : ℕ) :
    ((get_hybrid_matches extract soundex m query name_list top_n).2).Pairwise
        (fun a b => b.hybridScore ≤ a.hybridScore) ∧
      (get_hybrid_matches extract soundex m query name_list top_n).2 =
        (sort_values_desc (scored_rows m (soundex query) query
          (extract query name_list))).take top_n ∧
      ∀ k : ℚ,
        (sort_values_desc (scored_rows m (soundex query) query
            (extract query name_list))).filter (fun s => decide (s.hybridScore = k)) =
          ((scored_rows m (soundex query) query
            (extract query name_list)).filter (fun s => decide (s.hybridScore = k))).reverse := by
  refine ⟨?_, ?_, fun k => filter_sort_values_desc _ k⟩
  · rw [snd_get_hybrid_matches]
    exact ranked_rows_pairwise m (soundex query) query (extract query name_list) top_n
  · rw [snd_get_hybrid_matches]
    rfl

/-- C5: the ranked sequence contains each name string at most once, and
each returned row is derived from the first occurrence of its name in
the output of the scoring step, retaining the base score of that occurrence. -/
theorem dedup_first_occurrence (extract : String → List String → List Row)
    (soundex : String → String) (m : String → Option String)
    (query : String) (name_list : List String) (top_n : ℕ) :
    (((get_hybrid_matches extract soundex m query name_list top_n).2).map
        SRow.matchedName).Nodup ∧
      ∀ s ∈ (get_hybrid_matches extract soundex m query name_list top_n).2,
        ∃ r : Row,
          (extract query name_list).find?
            (fun x => x.matchedName == s.matchedName) = some r ∧
          s = apply_bonus m (soundex query) r := by
  constructor
  · rw [snd_get_hybrid_matches, ranked_rows, List.map_take]
    refine List.Nodup.sublist (List.take_sublist _ _) ?_
    rw [((sort_values_desc_perm _).map SRow.matchedName).nodup_iff, scored_rows_names]
    exact dedupAux_names_nodup _ _
  · intro s hs
    obtain ⟨r, hr, rfl⟩ := mem_output extract soundex m query name_list top_n s hs
    refine ⟨r, ?_, rfl⟩
    have hfind := (dedupAux_find? _ _ r hr).2
    have hkeep := (List.mem_filter.mp (mem_exclude_of_mem_surviving hr)).2
    have hlift := find?_filter_eq (extract query name_list)
      (fun x => lowerStr x.matchedName != lowerStr query)
      (fun x => x.matchedName == r.matchedName) ?_
    · show (extract query name_list).find?
        (fun x => x.matchedName == r.matchedName) = some r
      rw [← hlift]
      exact hfind
    · intro x hx
      have hxr : x.matchedName = r.matchedName := by simpa using hx
      show (lowerStr x.matchedName != lowerStr query) = true
      rw [hxr]
      exact hkeep

/-- C5 witness: the first-occurrence property instantiated on a
concrete run. -/
theorem dedup_first_occurrence_check :
    ∃ r : Row,
      (extractA "Githa" ["Geetha", "Smith"]).find?
        (fun x => x.matchedName == (⟨"Geetha", 100, 90⟩ : SRow).matchedName) = some r ∧
      (⟨"Geetha", 100, 90⟩ : SRow) = apply_bonus msmA (soundexA "Githa") r :=
  (dedup_first_occurrence extractA soundexA msmA "Githa" ["Geetha", "Smith"] 10).2
    ⟨"Geetha", 100, 90⟩ (by with_unfolding_all decide)

/-- C6: when no candidate survives exclusion and deduplication the
result is `(None, [])`; otherwise the best match is the name and hybrid
score of the first ranked entry.  The hypothesis `1 ≤ top_n` is the
domain of the `rank` contract (`topN : integer ≥ 1`). -/
theorem best_match_spec (extract : String → List String → List Row)
    (soundex : String → String) (m : String → Option String)
    (query : String) (name_list : List String) (top_n : ℕ) (hn : 1 ≤ top_n) :
    (surviving_rows query (extract query name_list) = [] →
      get_hybrid_matches extract soundex m query name_list top_n = (none, [])) ∧
    (surviving_rows query (extract query name_list) ≠ [] →
      ∃ top rest,
        (get_hybrid_matches extract soundex m query name_list top_n).2 = top :: rest ∧
        (get_hybrid_matches extract soundex m query name_list top_n).1 =
          some (top.matchedName, top.hybridScore)) := by
  constructor
  · intro h
    have hranked : ranked_rows m (soundex query) query (extract query name_list) top_n
        = [] := by
      simp [ranked_rows, scored_rows, h, sort_values_desc]
    simp [get_hybrid_matches, hranked]
  · intro hne
    have hlen : 0 <
        (ranked_rows m (soundex query) query (extract query name_list) top_n).length := by
      rw [ranked_rows, List.length_take, sort_values_desc, List.length_reverse,
        List.length_insertionSort, scored_rows, List.length_map]
      have hpos : 0 < (surviving_rows query (extract query name_list)).length :=
        List.length_pos.mpr hne
      omega
    cases hd : ranked_rows m (soundex query) query (extract query name_list) top_n with
    | nil => rw [hd] at hlen; simp at hlen
    | cons top rest =>
      refine ⟨top, rest, ?_, ?_⟩
      · rw [snd_get_hybrid_matches, hd]
      · simp [get_hybrid_matches, hd]

/-- C6 witness: on a concrete run with surviving candidates, the best
match is the head of the ranking. -/
theorem best_match_spec_check :
    ∃ top rest,
      (get_hybrid_matches extractA soundexA msmA "Githa" ["Geetha", "Smith"] 10).2 =
        top :: rest ∧
      (get_hybrid_matches extractA soundexA msmA "Githa" ["Geetha", "Smith"] 10).1 =
        some (top.matchedName, top.hybridScore) :=
  (best_match_spec extractA soundexA msmA "Githa" ["Geetha", "Smith"] 10
    (by decide)).2 (by with_unfolding_all decide)

/-- C7: the ranked sequence has length at most `topN` and at most the
number of surviving candidates, and when `topN` is at least the number
of surviving candidates all of them are returned (as a permutation of
the scored survivors: no padding, no error). -/
theorem topn_bound (extract : String → List String → List Row)
    (soundex : String → String) (m : String → Option String)
    (query : String) (name_list : List String) (top_n : ℕ) :
    (get_hybrid_matches extract soundex m query name_list top_n).2.length ≤ top_n ∧
    (get_hybrid_matches extract soundex m query name_list top_n).2.length ≤
      (surviving_rows query (extract query name_list)).length ∧
    ((surviving_rows query (extract query name_list)).length ≤ top_n →
      List.Perm (get_hybrid_matches extract soundex m query name_list top_n).2
        (scored_rows m (soundex query) query (extract query name_list))) := by
  rw [snd_get_hybrid_matches]
  have hlen : (sort_values_desc (scored_rows m (soundex query) query
      (extract query name_list))).length =
      (surviving_rows query (extract query name_list)).length := by
    rw [sort_values_desc, List.length_reverse, List.length_insertionSort,
      scored_rows, List.length_map]
  refine ⟨?_, ?_, ?_⟩
  · rw [ranked_rows, List.length_take]
    omega
  · rw [ranked_rows, List.length_take]
    omega
  · intro h
    rw [ranked_rows, List.take_of_length_le (by omega)]
    exact sort_values_desc_perm _

/-- C7 witness: with `topN` larger than the two survivors, all of them
are returned. -/
theorem topn_bound_check :
    List.Perm (get_hybrid_matches extractA soundexA msmA "Githa" ["Geetha", "Smith"] 10).2
      (scored_rows msmA (soundexA "Githa") "Githa"
        (extractA "Githa" ["Geetha", "Smith"])) :=
  (topn_bound extractA soundexA msmA "Githa" ["Geetha", "Smith"] 10).2.2
    (by with_unfolding_all decide)

/-- A concrete bulk scorer output with two candidates tied at the top
of the score range. -/
def extractC : String → List String → List Row :=
  fun _ _ => [⟨"Anna", 100, 0⟩, ⟨"Bella", 100, 1⟩]

/-- A concrete phonetic encoder giving every string the code `A500`. -/
def soundexC : String → String := fun _ => "A500"

/-- A concrete phonetic index containing only `Anna`. -/
def msmC : String → Option String :=
  fun n => if n == "Anna" then some "A500" else none

/-- C8 counterexample: `Anna` and `Bella` both have base score 100;
the phonetic code of `Anna` matches that of the query and the code of `Bella` does not, yet
the cap at 100 makes their hybrid scores equal, and in the ranked
output the non-matching `Bella` even comes first -- the matching
candidate does not rank strictly higher. -/
theorem phonetic_tie_at_cap :
    calculate_bonus_score msmC (soundexC "Ana") ⟨"Anna", 100, 0⟩ =
      calculate_bonus_score msmC (soundexC "Ana") ⟨"Bella", 100, 1⟩ ∧
    msmC "Anna" = some (soundexC "Ana") ∧
    msmC "Bella" ≠ some (soundexC "Ana") ∧
    ((get_hybrid_matches extractC soundexC msmC "Ana"
      ["Anna", "Bella"] 10).2).map SRow.matchedName = ["Bella", "Anna"] := by
  with_unfolding_all decide

/-- C8 amended: for two candidates with equal base score strictly below
100, the one whose phonetic code matches that of the query gets a strictly
greater hybrid score than the one whose code does not; at base score
100 the cap makes both hybrid scores 100 and the candidates may rank
equally (in either order). -/
theorem phonetic_strict_below_cap (m : String → Option String) (qs : String)
    (r1 r2 : Row) (hbase : r1.wratioScore = r2.wratioScore)
    (hlt : r1.wratioScore < 100)
    (h1 : m r1.matchedName = some qs) (h2 : m r2.matchedName ≠ some qs) :
    calculate_bonus_score m qs r2 < calculate_bonus_score m qs r1 := by
  simp only [calculate_bonus_score]
  rw [if_pos h1, if_neg h2, ← hbase]
  rw [show r1.wratioScore + (0 : ℚ) * (1 / 10) = r1.wratioScore from by ring]
  rw [min_eq_right (le_of_lt hlt)]
  refine lt_min hlt (by linarith)

/-- C8 amended witness: at base score 40, the phonetically matching
candidate scores strictly higher. -/
theorem phonetic_strict_below_cap_check :
    calculate_bonus_score msmA "G300" ⟨"Smith", 40, 1⟩ <
      calculate_bonus_score msmA "G300" ⟨"Geetha", 40, 0⟩ :=
  phonetic_strict_below_cap msmA "G300" ⟨"Geetha", 40, 0⟩ ⟨"Smith", 40, 1⟩ rfl
    (by decide) (by decide) (by decide)

/-- C9: the ranking computation is a pure function of its arguments:
two invocations with identical arguments give identical results. -/
theorem rank_deterministic (extract : String → List String → List Row)
    (soundex : String → String) (m : String → Option String)
    (query : String) (name_list : List String) (top_n : ℕ) :
    get_hybrid_matches extract soundex m query name_list top_n =
      get_hybrid_matches extract soundex m query name_list top_n := rfl

/-- C10: running a query leaves the shared reference list and phonetic
index unchanged: the state-passing translation of the ranking function
returns the environment it was given. -/
theorem rank_preserves_env (extract : String → List String → List Row)
    (soundex : String → String) (env : Env) (query : String) (top_n : ℕ) :
    (run_query extract soundex env query top_n).2 = env := rfl
